import Mathlib

/-!
Verification of the mkdocs-coverage plugin (src/mkdocs_coverage/plugin.py).

The development shallowly embeds the two plugin hooks:

* the page synthesizer (`on_files` together with `_build_coverage_page`),
  which is pure string manipulation over the host's virtual file collection,
  modelled here as an association list from source paths to contents; and
* the report merger (`on_post_build`), which performs a sequence of
  filesystem moves/copies, modelled here as transformations of a flat site
  tree: a list of (relative path, content) entries rooted at `site_dir`,
  where a relative path is a list of path components.

File contents and names are lists of characters.  Python string builtins
used by the source (`str.replace`, `str.count`, `str.__contains__`, and
`re.sub` with a literal pattern) are modelled by fuel-indexed structural
scanners so that every definition evaluates inside the kernel.
-/

/-- Python `s.replace(old, new)` (also `re.sub` with the literal pattern
`old`): scan left to right, replacing each non-overlapping occurrence of
`old`; an empty `old` inserts `new` at every position.  Structural recursion
on a fuel argument; `pyReplace` below supplies fuel `s.length`. -/
def pyReplaceFuel (old new : List Char) : Nat → List Char → List Char
  | _, [] => if old = [] then new else []
  | 0, s => s
  | fuel + 1, c :: rest =>
    if old = [] then new ++ c :: pyReplaceFuel old new fuel rest
    else if old.isPrefixOf (c :: rest) then
      new ++ pyReplaceFuel old new fuel (List.drop old.length (c :: rest))
    else c :: pyReplaceFuel old new fuel rest

/-- Python `s.replace(old, new)`. -/
def pyReplace (old new s : List Char) : List Char :=
  pyReplaceFuel old new s.length s

/-- Python `s.count(old)`: number of non-overlapping occurrences, scanning
left to right; for empty `old` this is `s.length + 1`. -/
def countOccFuel (old : List Char) : Nat → List Char → Nat
  | _, [] => if old = [] then 1 else 0
  | 0, _ => 0
  | fuel + 1, c :: rest =>
    if old = [] then countOccFuel old fuel rest + 1
    else if old.isPrefixOf (c :: rest) then
      countOccFuel old fuel (List.drop old.length (c :: rest)) + 1
    else countOccFuel old fuel rest

/-- Python `s.count(old)`. -/
def countOcc (old s : List Char) : Nat :=
  countOccFuel old s.length s

/-- Prepend a character to the first block of a list of blocks. -/
def consHead (c : Char) : List (List Char) → List (List Char)
  | [] => [[c]]
  | p :: ps => (c :: p) :: ps

/-- Python `s.split(old)` for a non-empty separator `old` (used here only as
a specification device to characterise `pyReplace`). -/
def pySplitFuel (old : List Char) : Nat → List Char → List (List Char)
  | _, [] => [[]]
  | 0, s => [s]
  | fuel + 1, c :: rest =>
    if old = [] then [c :: rest]
    else if old.isPrefixOf (c :: rest) then
      [] :: pySplitFuel old fuel (List.drop old.length (c :: rest))
    else consHead c (pySplitFuel old fuel rest)

/-- Python `s.split(old)` for non-empty `old`. -/
def pySplit (old s : List Char) : List (List Char) :=
  pySplitFuel old s.length s

/-- Python `old in s` (`str.__contains__`): substring test. -/
def containsSub (pat : List Char) : List Char → Bool
  | [] => pat.isPrefixOf []
  | c :: rest => pat.isPrefixOf (c :: rest) || containsSub pat rest

/-! ## The generated page markup (`_build_coverage_page`) -/

/-- Everything of the dedented inline-frame template before the interpolated
`covindex` value: the frame's `src` attribute opens right at its end. -/
def iframeSrcPre : List Char :=
  "\n<iframe\n    id=\"coviframe\"\n    src=\"".data

/-- Everything of the dedented inline-frame template after the interpolated
`covindex` value. -/
def iframeSrcPost : List Char :=
  "\"\n    frameborder=\"0\"\n    scrolling=\"no\"\n    onload=\"resizeIframe();\"\n    width=\"100%\">\n</iframe>\n".data

/-- The dedented inline-frame block with `covindex` interpolated into the
`src` attribute (`iframe` in `_build_coverage_page`). -/
def iframeBlock (covindex : List Char) : List Char :=
  iframeSrcPre ++ covindex ++ iframeSrcPost

/-- The dedented resize/reload script block (`script` in
`_build_coverage_page`). -/
def scriptBlock : List Char :=
  "\n<script>\nvar coviframe = document.getElementById(\"coviframe\");\n\nfunction resizeIframe() \x7b\n    coviframe.style.height = coviframe.contentWindow.document.documentElement.offsetHeight + \x27px\x27;\n\x7d\n\ncoviframe.contentWindow.document.body.onclick = function() \x7b\n    coviframe.contentWindow.location.reload();\n\x7d\n</script>\n".data

/-- The dedented title/sidebar-hiding style block (`style` in
`_build_coverage_page`). -/
def styleBlock : List Char :=
  "\n<style>\narticle h1, article > a, .md-sidebar--secondary \x7b\n    display: none !important;\n\x7d\n</style>\n".data

/-- `coverage_page_content = iframe + script`. -/
def coveragePageContent (covindex : List Char) : List Char :=
  iframeBlock covindex ++ scriptBlock

/-- `MkDocsCoveragePlugin._build_coverage_page`: `none` models a missing
user page, `some pc` its raw text.  Python `if not page_content` is true for
both `None` and the empty string. -/
def buildCoveragePage (placeholder covindex : List Char)
    (pageContent : Option (List Char)) : List Char :=
  match pageContent with
  | none => styleBlock ++ coveragePageContent covindex
  | some pc =>
    if pc = [] then styleBlock ++ coveragePageContent covindex
    else if containsSub placeholder pc then
      pyReplace placeholder (coveragePageContent covindex) pc
    else pc ++ "\n\n".data ++ coveragePageContent covindex

/-! ## The plugin configuration and `on_files` -/

/-- `MkDocsCoverageConfig`: the plugin's recognised options.  `page_name` is
the deprecated option (`Optional`, default `None`). -/
structure PluginConfig where
  page_name : Option (List Char)
  page_path : List Char
  html_report_dir : List Char
  coverage_inplace_placeholder : List Char

/-- The configuration defaults (`page_path="coverage"`,
`html_report_dir="htmlcov"`, the literal placeholder token). -/
def defaultConfig : PluginConfig :=
  { page_name := none
    page_path := "coverage".data
    html_report_dir := "htmlcov".data
    coverage_inplace_placeholder := "\x7b\x7bmkdocs-coverage\x7d\x7d".data }

/-- Line 55: `self.page_path = self.config.page_path if
self.config.page_name is None else self.config.page_name`. -/
def effectivePagePath (cfg : PluginConfig) : List Char :=
  match cfg.page_name with
  | none => cfg.page_path
  | some n => n

/-- Line 56: `covindex = "covindex.html" if config.use_directory_urls else
f"{self.page_path}/covindex.html"`. -/
def covindexOf (pp : List Char) (useDirectoryUrls : Bool) : List Char :=
  if useDirectoryUrls then "covindex.html".data else pp ++ "/covindex.html".data

/-- The source-page extension appended to `page_path` (line 57). -/
def mdExt : List Char := ".md".data

/-- First entry of an association list at a given key.  Models both
`Files.get_file_from_path` of the host's file collection and a filesystem
lookup in the flat site tree. -/
def lookupFirst {α : Type} [DecidableEq α] :
    List (α × List Char) → α → Option (List Char)
  | [], _ => none
  | e :: rest, k => if e.1 = k then some e.2 else lookupFirst rest k

/-- Keep the entries whose key satisfies `f`. -/
def filterKeys {α : Type} [DecidableEq α] (f : α → Bool)
    (l : List (α × List Char)) : List (α × List Char) :=
  l.filter fun e => f e.1

/-- Number of entries at a given key. -/
def countKey {α : Type} [DecidableEq α] (l : List (α × List Char)) (k : α) : Nat :=
  (l.filter fun e => decide (e.1 = k)).length

/-- The host's virtual file collection: entries of source path and content,
in insertion order.  Modelled from the spec's declared host interface
(lookup-by-path, removal-by-path, membership, insertion order); the host
build system itself is outside this repository. -/
abbrev SrcFiles := List (List Char × List Char)

/-- Removal-by-path of the host collection: drop the first entry at the
path. -/
def filesRemove : SrcFiles → List Char → SrcFiles
  | [], _ => []
  | e :: rest, uri => if e.1 = uri then rest else e :: filesRemove rest uri

/-- Membership test of the host collection (`file.src_uri in files`). -/
def filesContains (files : SrcFiles) (uri : List Char) : Bool :=
  (lookupFirst files uri).isSome

/-- The content handed to `File.generated` in `on_files`: the coverage page
built from the placeholder, the computed covindex URL, and the raw text of
any user page already at `<page_path>.md`. -/
def synthesizedContent (cfg : PluginConfig) (useDirectoryUrls : Bool)
    (files : SrcFiles) : List Char :=
  buildCoveragePage cfg.coverage_inplace_placeholder
    (covindexOf (effectivePagePath cfg) useDirectoryUrls)
    (lookupFirst files (effectivePagePath cfg ++ mdExt))

/-- `MkDocsCoveragePlugin.on_files` (lines 41-65): build the generated page,
remove any existing entry at `<page_path>.md`, append the generated one. -/
def on_files (cfg : PluginConfig) (useDirectoryUrls : Bool)
    (files : SrcFiles) : SrcFiles :=
  let uri := effectivePagePath cfg ++ mdExt
  let files1 := if filesContains files uri then filesRemove files uri else files
  files1 ++ [(uri, synthesizedContent cfg useDirectoryUrls files)]

/-! ## The site tree and `on_post_build` -/

/-- A file or directory name. -/
abbrev EntryName := List Char

/-- A path relative to `site_dir`, as a list of components. -/
abbrev SitePath := List EntryName

/-- The rendered site tree: a flat list of (relative path, content) file
entries; directories are implicit. -/
abbrev SiteTree := List (SitePath × List Char)

def indexName : EntryName := "index.html".data

def covindexName : EntryName := "covindex.html".data

def tmpName : EntryName := ".coverage-tmp.html".data

def htmlExt : List Char := ".html".data

/-- The fixed part of the warning message of line 149. -/
def warnText : List Char := "No such HTML report directory: ".data

def hrefIndex : List Char := "href=\"index.html\"".data

def hrefCovindex : List Char := "href=\"covindex.html\"".data

/-- Index (from the end) of the first `'.'` of a character list. -/
def revDotIdx : List Char → Option Nat
  | [] => none
  | c :: rest => if c = '.' then some 0 else (revDotIdx rest).map (· + 1)

/-- Position of the last `'.'` of a name, if any. -/
def findLastDot (n : EntryName) : Option Nat :=
  (revDotIdx n.reverse).map fun j => n.length - 1 - j

/-- `PurePath.suffix`: the extension from the last dot, which must be
neither the first nor the last character of the name. -/
def nameSuffix (n : EntryName) : List Char :=
  match findLastDot n with
  | none => []
  | some i => if 0 < i ∧ i < n.length - 1 then n.drop i else []

/-- `PurePath.with_suffix(".html")`: replace the existing extension if the
name has one, else append `.html`. -/
def withSuffixHtml (n : EntryName) : EntryName :=
  match findLastDot n with
  | none => n ++ htmlExt
  | some i => if 0 < i ∧ i < n.length - 1 then n.take i ++ htmlExt else n ++ htmlExt

/-- Filesystem lookup in the site tree. -/
def getF (fs : SiteTree) (p : SitePath) : Option (List Char) :=
  lookupFirst fs p

/-- Remove the file at a path (a real filesystem has at most one). -/
def removeF (fs : SiteTree) (p : SitePath) : SiteTree :=
  filterKeys (fun q => !decide (q = p)) fs

/-- Write a file, overwriting any existing file at the path. -/
def setF (fs : SiteTree) (p : SitePath) (c : List Char) : SiteTree :=
  removeF fs p ++ [(p, c)]

/-- `shutil.move` of one file: fails when the source is absent, overwrites
any file at the destination. -/
def moveF (fs : SiteTree) (src dst : SitePath) : Except Unit SiteTree :=
  match getF fs src with
  | none => Except.error ()
  | some c => Except.ok (setF (removeF fs src) dst c)

/-- Whether `shutil.rmtree(site_dir / d)` keeps the entry at path `q`:
everything below component `d` is removed. -/
def keepRmtree (d : EntryName) (q : SitePath) : Bool :=
  match q with
  | a :: _ :: _ => !decide (a = d)
  | _ => true

/-- `shutil.rmtree(site_dir / d, ignore_errors=True)`: remove every entry
below component `d`; a plain file at `d` itself survives (`rmtree` on a
non-directory errors and the error is ignored), and absence is tolerated. -/
def rmtreeAt (fs : SiteTree) (d : EntryName) : SiteTree :=
  filterKeys (keepRmtree d) fs

/-- The report tree re-rooted below component `d`. -/
def graftUnder (d : EntryName) (rep : SiteTree) : SiteTree :=
  rep.map fun e => (d :: e.1, e.2)

/-- `shutil.copytree(report, site_dir / d)`: fails when a file occupies the
destination path, otherwise grafts the report tree below `d`.  The missing
report source is handled by the caller via the `Option` in
`on_post_build`. -/
def copytreeInto (fs : SiteTree) (rep : SiteTree) (d : EntryName) :
    Except Unit SiteTree :=
  match getF fs [d] with
  | some _ => Except.error ()
  | none => Except.ok (fs ++ graftUnder d rep)

/-- The path of the rendered synthesized page (lines 140-143 and 154-157):
`site_dir/page_path/index.html` under directory URLs, else
`site_dir/page_path.html` via `Path.with_suffix`. -/
def canonicalSlot (useDirectoryUrls : Bool) (pp : EntryName) : SitePath :=
  if useDirectoryUrls then [pp, indexName] else [withSuffixHtml pp]

/-- Whether the loop of lines 159-161 rewrites the file at path `q`: a file
directly inside `site_dir/d` whose suffix is `.html` and whose name is not
`index.html`. -/
def rewriteAt (d : EntryName) (q : SitePath) : Bool :=
  match q with
  | [a, n] => decide (a = d) && decide (nameSuffix n = htmlExt) && !decide (n = indexName)
  | _ => false

/-- Lines 159-161: rewrite `href="index.html"` to `href="covindex.html"`
(`re.sub` with a literal pattern, i.e. replace every occurrence) in every
`.html` file directly inside `site_dir/d` other than `index.html`. -/
def rewriteLinks (fs : SiteTree) (d : EntryName) : SiteTree :=
  fs.map fun e =>
    if rewriteAt d e.1 then (e.1, pyReplace hrefIndex hrefCovindex e.2) else e

/-- `MkDocsCoveragePlugin.on_post_build` (lines 124-161).  `report` is
`none` when `html_report_dir` does not exist, else the report's file tree;
`reportDirName` is the configured `html_report_dir` string (used in the
warning).  The result is the final site tree together with the list of
warnings logged, or an error for the uncaught (fatal) exception paths. -/
def on_post_build (useDirectoryUrls : Bool) (pp : EntryName)
    (reportDirName : List Char) (report : Option SiteTree) (fs : SiteTree) :
    Except Unit (SiteTree × List (List Char)) :=
  match moveF fs (canonicalSlot useDirectoryUrls pp) [tmpName] with
  | Except.error e => Except.error e
  | Except.ok fs1 =>
    let fs2 := rmtreeAt fs1 pp
    match report with
    | none => Except.ok (fs2, [warnText ++ reportDirName])
    | some rep =>
      match copytreeInto fs2 rep pp with
      | Except.error e => Except.error e
      | Except.ok fs3 =>
        match moveF fs3 [pp, indexName] [pp, covindexName] with
        | Except.error e => Except.error e
        | Except.ok fs4 =>
          match moveF fs4 [tmpName] (canonicalSlot useDirectoryUrls pp) with
          | Except.error e => Except.error e
          | Except.ok fs5 => Except.ok (rewriteLinks fs5 pp, [])

/-! ## Lemmas about the string scanners -/

theorem consHead_ne_nil (c : Char) (l : List (List Char)) : consHead c l ≠ [] := by
  cases l <;> simp [consHead]

theorem length_consHead (c : Char) {l : List (List Char)} (h : l ≠ []) :
    (consHead c l).length = l.length := by
  cases l with
  | nil => exact absurd rfl h
  | cons p ps => simp [consHead]

theorem intercalate_consHead (sep : List Char) (c : Char) {l : List (List Char)}
    (h : l ≠ []) :
    List.intercalate sep (consHead c l) = c :: List.intercalate sep l := by
  cases l with
  | nil => exact absurd rfl h
  | cons p ps =>
    cases ps with
    | nil => simp [consHead, List.intercalate]
    | cons q t => simp [consHead, List.intercalate, List.intersperse]

theorem intercalate_cons₂ (sep a b : List Char) (t : List (List Char)) :
    List.intercalate sep (a :: b :: t) = a ++ sep ++ List.intercalate sep (b :: t) := by
  simp [List.intercalate, List.intersperse]

theorem eq_append_drop_of_isPrefixOf {old s : List Char}
    (h : old.isPrefixOf s = true) : s = old ++ List.drop old.length s := by
  obtain ⟨t, ht⟩ := List.isPrefixOf_iff_prefix.mp h
  subst ht
  rw [List.drop_left]

theorem length_drop_le_of_ne_nil {old s : List Char} (hold : old ≠ [])
    {fuel : Nat} (hs : s.length ≤ fuel + 1) :
    (List.drop old.length s).length ≤ fuel := by
  have h1 : 0 < old.length := List.length_pos.mpr hold
  rw [List.length_drop]
  omega

theorem pySplitFuel_ne_nil (old : List Char) (fuel : Nat) (s : List Char) :
    pySplitFuel old fuel s ≠ [] := by
  cases fuel with
  | zero => cases s <;> simp [pySplitFuel]
  | succ fuel =>
    cases s with
    | nil => simp [pySplitFuel]
    | cons c rest =>
      simp only [pySplitFuel]
      split
      · simp
      · split
        · simp
        · exact consHead_ne_nil _ _

theorem pySplitFuel_head_pre (old : List Char) :
    ∀ fuel s p ps, s.length ≤ fuel → pySplitFuel old fuel s = p :: ps → p <+: s := by
  intro fuel
  induction fuel with
  | zero =>
    intro s p ps hs h
    have hnil : s = [] := List.eq_nil_of_length_eq_zero (Nat.le_zero.mp hs)
    subst hnil
    simp [pySplitFuel] at h
    simp [h.1]
  | succ fuel ih =>
    intro s p ps hs h
    cases s with
    | nil =>
      simp [pySplitFuel] at h
      simp [h.1]
    | cons c rest =>
      simp only [pySplitFuel] at h
      by_cases hold : old = []
      · rw [if_pos hold] at h
        simp at h
        simp [h.1]
      · rw [if_neg hold] at h
        by_cases hpre : old.isPrefixOf (c :: rest) = true
        · rw [if_pos hpre] at h
          have hp : p = [] := (List.cons.injEq _ _ _ _ ▸ h).1.symm
          simp [hp]
        · rw [if_neg hpre] at h
          obtain ⟨q, qs, hsplit⟩ :
              ∃ q qs, pySplitFuel old fuel rest = q :: qs := by
            cases hq : pySplitFuel old fuel rest with
            | nil => exact absurd hq (pySplitFuel_ne_nil old fuel rest)
            | cons q qs => exact ⟨q, qs, rfl⟩
          rw [hsplit] at h
          simp [consHead] at h
          have hq : q <+: rest := ih rest q qs (by simp at hs; omega) hsplit
          rw [← h.1]
          exact List.cons_prefix_cons.mpr ⟨rfl, hq⟩

theorem length_pySplitFuel (old : List Char) (hold : old ≠ []) :
    ∀ fuel s, s.length ≤ fuel →
      (pySplitFuel old fuel s).length = countOccFuel old fuel s + 1 := by
  intro fuel
  induction fuel with
  | zero =>
    intro s hs
    have hnil : s = [] := List.eq_nil_of_length_eq_zero (Nat.le_zero.mp hs)
    subst hnil
    simp [pySplitFuel, countOccFuel, hold]
  | succ fuel ih =>
    intro s hs
    cases s with
    | nil => simp [pySplitFuel, countOccFuel, hold]
    | cons c rest =>
      simp only [pySplitFuel, countOccFuel]
      rw [if_neg hold, if_neg hold]
      by_cases hpre : old.isPrefixOf (c :: rest) = true
      · rw [if_pos hpre, if_pos hpre]
        have hdrop : (List.drop old.length (c :: rest)).length ≤ fuel :=
          length_drop_le_of_ne_nil hold (by simpa using hs)
        simp [ih _ hdrop]
      · rw [if_neg hpre, if_neg hpre]
        have hrest : rest.length ≤ fuel := by simp at hs; omega
        rw [length_consHead _ (pySplitFuel_ne_nil old fuel rest)]
        exact ih rest hrest

theorem intercalate_pySplitFuel (old : List Char) (hold : old ≠ []) :
    ∀ fuel s, s.length ≤ fuel →
      List.intercalate old (pySplitFuel old fuel s) = s := by
  intro fuel
  induction fuel with
  | zero =>
    intro s hs
    have hnil : s = [] := List.eq_nil_of_length_eq_zero (Nat.le_zero.mp hs)
    subst hnil
    simp [pySplitFuel, List.intercalate]
  | succ fuel ih =>
    intro s hs
    cases s with
    | nil => simp [pySplitFuel, List.intercalate]
    | cons c rest =>
      simp only [pySplitFuel]
      rw [if_neg hold]
      by_cases hpre : old.isPrefixOf (c :: rest) = true
      · rw [if_pos hpre]
        have hdrop : (List.drop old.length (c :: rest)).length ≤ fuel :=
          length_drop_le_of_ne_nil hold (by simpa using hs)
        obtain ⟨q, qs, hsplit⟩ :
            ∃ q qs, pySplitFuel old fuel (List.drop old.length (c :: rest)) = q :: qs := by
          cases hq : pySplitFuel old fuel (List.drop old.length (c :: rest)) with
          | nil => exact absurd hq (pySplitFuel_ne_nil old fuel _)
          | cons q qs => exact ⟨q, qs, rfl⟩
        have hih := ih _ hdrop
        rw [hsplit] at hih ⊢
        rw [intercalate_cons₂, hih]
        simp [(eq_append_drop_of_isPrefixOf hpre).symm]
      · rw [if_neg hpre]
        have hrest : rest.length ≤ fuel := by simp at hs; omega
        rw [intercalate_consHead _ _ (pySplitFuel_ne_nil old fuel rest), ih rest hrest]

theorem pyReplaceFuel_eq_intercalate (old new : List Char) (hold : old ≠ []) :
    ∀ fuel s, s.length ≤ fuel →
      pyReplaceFuel old new fuel s = List.intercalate new (pySplitFuel old fuel s) := by
  intro fuel
  induction fuel with
  | zero =>
    intro s hs
    have hnil : s = [] := List.eq_nil_of_length_eq_zero (Nat.le_zero.mp hs)
    subst hnil
    simp [pySplitFuel, pyReplaceFuel, List.intercalate, hold]
  | succ fuel ih =>
    intro s hs
    cases s with
    | nil => simp [pySplitFuel, pyReplaceFuel, List.intercalate, hold]
    | cons c rest =>
      simp only [pySplitFuel, pyReplaceFuel]
      rw [if_neg hold, if_neg hold]
      by_cases hpre : old.isPrefixOf (c :: rest) = true
      · rw [if_pos hpre, if_pos hpre]
        have hdrop : (List.drop old.length (c :: rest)).length ≤ fuel :=
          length_drop_le_of_ne_nil hold (by simpa using hs)
        obtain ⟨q, qs, hsplit⟩ :
            ∃ q qs, pySplitFuel old fuel (List.drop old.length (c :: rest)) = q :: qs := by
          cases hq : pySplitFuel old fuel (List.drop old.length (c :: rest)) with
          | nil => exact absurd hq (pySplitFuel_ne_nil old fuel _)
          | cons q qs => exact ⟨q, qs, rfl⟩
        have hih := ih _ hdrop
        rw [hsplit] at hih ⊢
        rw [intercalate_cons₂, hih]
        simp
      · rw [if_neg hpre, if_neg hpre]
        have hrest : rest.length ≤ fuel := by simp at hs; omega
        rw [intercalate_consHead _ _ (pySplitFuel_ne_nil old fuel rest), ih rest hrest]

theorem countOcc_nil {old : List Char} (hold : old ≠ []) : countOcc old [] = 0 := by
  simp [countOcc, countOccFuel, hold]

theorem countOcc_parts_pySplitFuel (old : List Char) (hold : old ≠ []) :
    ∀ fuel s, s.length ≤ fuel →
      ∀ p ∈ pySplitFuel old fuel s, countOcc old p = 0 := by
  intro fuel
  induction fuel with
  | zero =>
    intro s hs p hp
    have hnil : s = [] := List.eq_nil_of_length_eq_zero (Nat.le_zero.mp hs)
    subst hnil
    simp [pySplitFuel] at hp
    simp [hp, countOcc_nil hold]
  | succ fuel ih =>
    intro s hs p hp
    cases s with
    | nil =>
      simp [pySplitFuel] at hp
      simp [hp, countOcc_nil hold]
    | cons c rest =>
      simp only [pySplitFuel] at hp
      rw [if_neg hold] at hp
      by_cases hpre : old.isPrefixOf (c :: rest) = true
      · rw [if_pos hpre] at hp
        rcases List.mem_cons.mp hp with h | h
        · simp [h, countOcc_nil hold]
        · have hdrop : (List.drop old.length (c :: rest)).length ≤ fuel :=
            length_drop_le_of_ne_nil hold (by simpa using hs)
          exact ih _ hdrop p h
      · rw [if_neg hpre] at hp
        have hrest : rest.length ≤ fuel := by simp at hs; omega
        obtain ⟨q, qs, hsplit⟩ :
            ∃ q qs, pySplitFuel old fuel rest = q :: qs := by
          cases hq : pySplitFuel old fuel rest with
          | nil => exact absurd hq (pySplitFuel_ne_nil old fuel rest)
          | cons q qs => exact ⟨q, qs, rfl⟩
        rw [hsplit] at hp
        simp only [consHead] at hp
        rcases List.mem_cons.mp hp with h | h
        · subst h
          have hq0 : countOcc old q = 0 :=
            ih rest hrest q (hsplit ▸ List.mem_cons_self q qs)
          have hqpre : q <+: rest :=
            pySplitFuel_head_pre old fuel rest q qs hrest hsplit
          have hnopre : old.isPrefixOf (c :: q) = false := by
            by_contra hx
            have hx' : old.isPrefixOf (c :: q) = true := by
              cases h' : old.isPrefixOf (c :: q) with
              | true => rfl
              | false => exact absurd h' hx
            have h1 : old <+: (c :: q) := List.isPrefixOf_iff_prefix.mp hx'
            have h2 : (c :: q) <+: (c :: rest) := List.cons_prefix_cons.mpr ⟨rfl, hqpre⟩
            have h3 : old <+: (c :: rest) := h1.trans h2
            exact hpre (List.isPrefixOf_iff_prefix.mpr h3)
          show countOcc old (c :: q) = 0
          simp only [countOcc, List.length_cons, countOccFuel]
          rw [if_neg hold, if_neg (by simp [hnopre])]
          exact hq0
        · exact ih rest hrest p (hsplit ▸ List.mem_cons_of_mem q h)

theorem containsSubFuel_iff (old : List Char) :
    ∀ fuel s, s.length ≤ fuel →
      (containsSub old s = true ↔ countOccFuel old fuel s ≠ 0) := by
  intro fuel
  induction fuel with
  | zero =>
    intro s hs
    have hnil : s = [] := List.eq_nil_of_length_eq_zero (Nat.le_zero.mp hs)
    subst hnil
    by_cases hold : old = []
    · subst hold
      simp [containsSub, countOccFuel, List.isPrefixOf]
    · constructor
      · intro h
        simp [containsSub] at h
        cases old with
        | nil => exact absurd rfl hold
        | cons a as => simp [List.isPrefixOf] at h
      · intro h
        simp [countOccFuel, hold] at h
  | succ fuel ih =>
    intro s hs
    cases s with
    | nil =>
      by_cases hold : old = []
      · subst hold
        simp [containsSub, countOccFuel, List.isPrefixOf]
      · constructor
        · intro h
          simp [containsSub] at h
          cases old with
          | nil => exact absurd rfl hold
          | cons a as => simp [List.isPrefixOf] at h
        · intro h
          simp [countOccFuel, hold] at h
    | cons c rest =>
      simp only [containsSub, countOccFuel]
      by_cases hold : old = []
      · subst hold
        simp [List.isPrefixOf]
      · rw [if_neg hold]
        by_cases hpre : old.isPrefixOf (c :: rest) = true
        · rw [if_pos hpre]
          simp [hpre]
        · rw [if_neg hpre]
          have hrest : rest.length ≤ fuel := by simp at hs; omega
          have hx : old.isPrefixOf (c :: rest) = false := by
            cases h' : old.isPrefixOf (c :: rest) with
            | true => exact absurd h' hpre
            | false => rfl
          rw [hx]
          simp only [Bool.false_or]
          exact ih rest hrest

/-! Instantiations at fuel `s.length`. -/

theorem intercalate_pySplit {old : List Char} (s : List Char) (hold : old ≠ []) :
    List.intercalate old (pySplit old s) = s :=
  intercalate_pySplitFuel old hold s.length s (Nat.le_refl _)

theorem pyReplace_eq_intercalate {old : List Char} (new s : List Char) (hold : old ≠ []) :
    pyReplace old new s = List.intercalate new (pySplit old s) :=
  pyReplaceFuel_eq_intercalate old new hold s.length s (Nat.le_refl _)

theorem length_pySplit {old : List Char} (s : List Char) (hold : old ≠ []) :
    (pySplit old s).length = countOcc old s + 1 :=
  length_pySplitFuel old hold s.length s (Nat.le_refl _)

theorem countOcc_parts_pySplit {old : List Char} (s : List Char) (hold : old ≠ []) :
    ∀ p ∈ pySplit old s, countOcc old p = 0 :=
  countOcc_parts_pySplitFuel old hold s.length s (Nat.le_refl _)

theorem containsSub_iff_countOcc (old s : List Char) :
    containsSub old s = true ↔ countOcc old s ≠ 0 :=
  containsSubFuel_iff old s.length s (Nat.le_refl _)

/-- A string with exactly one occurrence of `old` decomposes around it, and
`pyReplace` rewrites exactly that occurrence. -/
theorem countOcc_one_decomp {old : List Char} (new s : List Char) (hold : old ≠ [])
    (h : countOcc old s = 1) :
    ∃ p q, s = p ++ old ++ q ∧ countOcc old p = 0 ∧ countOcc old q = 0 ∧
      pyReplace old new s = p ++ new ++ q := by
  have hlen : (pySplit old s).length = 2 := by rw [length_pySplit s hold, h]
  obtain ⟨p, q, hpq⟩ : ∃ p q, pySplit old s = [p, q] := by
    rcases hsplit : pySplit old s with _ | ⟨p, _ | ⟨q, _ | ⟨r, t⟩⟩⟩
    · rw [hsplit] at hlen; simp at hlen
    · rw [hsplit] at hlen; simp at hlen
    · exact ⟨p, q, rfl⟩
    · rw [hsplit] at hlen; simp at hlen
  have hs : s = p ++ old ++ q := by
    have := intercalate_pySplit s hold
    rw [hpq, intercalate_cons₂] at this
    simp [List.intercalate] at this
    rw [← this]
    simp [List.append_assoc]
  refine ⟨p, q, hs, ?_, ?_, ?_⟩
  · exact countOcc_parts_pySplit s hold p (by rw [hpq]; simp)
  · exact countOcc_parts_pySplit s hold q (by rw [hpq]; simp)
  · have := pyReplace_eq_intercalate new s hold
    rw [hpq, intercalate_cons₂] at this
    simp [List.intercalate] at this
    rw [this]
    simp [List.append_assoc]

/-- A string with no occurrence of `old` is unchanged by `pyReplace`. -/
theorem pyReplace_of_countOcc_zero {old : List Char} (new s : List Char)
    (hold : old ≠ []) (h : countOcc old s = 0) : pyReplace old new s = s := by
  have hlen : (pySplit old s).length = 1 := by rw [length_pySplit s hold, h]
  obtain ⟨p, hp⟩ : ∃ p, pySplit old s = [p] := by
    rcases hsplit : pySplit old s with _ | ⟨p, _ | ⟨q, t⟩⟩
    · rw [hsplit] at hlen; simp at hlen
    · exact ⟨p, rfl⟩
    · rw [hsplit] at hlen; simp at hlen
  have hs : p = s := by
    have := intercalate_pySplit s hold
    rw [hp] at this
    simpa [List.intercalate] using this
  have := pyReplace_eq_intercalate new s hold
  rw [hp] at this
  simp [List.intercalate] at this
  rw [this, hs]

/-! ## Lemmas about association lists and the site tree operations -/

theorem lookupFirst_cons {α : Type} [DecidableEq α] (e : α × List Char)
    (l : List (α × List Char)) (k : α) :
    lookupFirst (e :: l) k = if e.1 = k then some e.2 else lookupFirst l k := rfl

theorem countKey_cons {α : Type} [DecidableEq α] (e : α × List Char)
    (l : List (α × List Char)) (k : α) :
    countKey (e :: l) k = (if e.1 = k then 1 else 0) + countKey l k := by
  simp only [countKey, List.filter]
  by_cases h : e.1 = k
  · simp [h, Nat.add_comm]
  · simp [h]

theorem lookupFirst_append_of_none {α : Type} [DecidableEq α]
    {l₁ : List (α × List Char)} (l₂ : List (α × List Char)) {k : α}
    (h : lookupFirst l₁ k = none) :
    lookupFirst (l₁ ++ l₂) k = lookupFirst l₂ k := by
  induction l₁ with
  | nil => rfl
  | cons e rest ih =>
    rw [lookupFirst_cons] at h
    by_cases he : e.1 = k
    · rw [if_pos he] at h; exact absurd h (by simp)
    · rw [if_neg he] at h
      simp only [List.cons_append, lookupFirst_cons, if_neg he]
      exact ih h

theorem lookupFirst_append_of_some {α : Type} [DecidableEq α]
    {l₁ : List (α × List Char)} (l₂ : List (α × List Char)) {k : α} {c : List Char}
    (h : lookupFirst l₁ k = some c) :
    lookupFirst (l₁ ++ l₂) k = some c := by
  induction l₁ with
  | nil => simp [lookupFirst] at h
  | cons e rest ih =>
    rw [lookupFirst_cons] at h
    by_cases he : e.1 = k
    · rw [if_pos he] at h
      simp only [List.cons_append, lookupFirst_cons, if_pos he]
      exact h
    · rw [if_neg he] at h
      simp only [List.cons_append, lookupFirst_cons, if_neg he]
      exact ih h

theorem lookupFirst_filterKeys {α : Type} [DecidableEq α] (f : α → Bool)
    (l : List (α × List Char)) (k : α) :
    lookupFirst (filterKeys f l) k =
      if f k = true then lookupFirst l k else none := by
  induction l with
  | nil => simp [filterKeys, lookupFirst]
  | cons e rest ih =>
    have hstep : filterKeys f (e :: rest) =
        if f e.1 = true then e :: filterKeys f rest else filterKeys f rest := by
      simp only [filterKeys, List.filter]
      by_cases hf : f e.1 = true
      · rw [hf]; simp
      · rw [Bool.not_eq_true] at hf; rw [hf]; simp [hf]
    rw [hstep]
    by_cases he : e.1 = k
    · subst he
      by_cases hf : f e.1 = true
      · rw [if_pos hf, lookupFirst_cons, if_pos rfl, if_pos hf, lookupFirst_cons,
          if_pos rfl]
      · rw [if_neg hf, ih, if_neg hf, if_neg hf]
    · by_cases hf : f e.1 = true
      · rw [if_pos hf, lookupFirst_cons, if_neg he, ih, lookupFirst_cons, if_neg he]
      · rw [if_neg hf, ih, lookupFirst_cons, if_neg he]

theorem countKey_append {α : Type} [DecidableEq α] (l₁ l₂ : List (α × List Char))
    (k : α) : countKey (l₁ ++ l₂) k = countKey l₁ k + countKey l₂ k := by
  simp [countKey, List.filter_append]

theorem countKey_filterKeys {α : Type} [DecidableEq α] (f : α → Bool)
    (l : List (α × List Char)) (k : α) :
    countKey (filterKeys f l) k = if f k = true then countKey l k else 0 := by
  induction l with
  | nil => simp [filterKeys, countKey]
  | cons e rest ih =>
    have hstep : filterKeys f (e :: rest) =
        if f e.1 = true then e :: filterKeys f rest else filterKeys f rest := by
      simp only [filterKeys, List.filter]
      by_cases hf : f e.1 = true
      · rw [hf]; simp
      · rw [Bool.not_eq_true] at hf; rw [hf]; simp [hf]
    rw [hstep]
    by_cases he : e.1 = k
    · subst he
      by_cases hf : f e.1 = true
      · rw [if_pos hf, countKey_cons, if_pos rfl, ih, if_pos hf, countKey_cons,
          if_pos rfl, if_pos hf]
      · rw [if_neg hf, ih, if_neg hf, if_neg hf]
    · by_cases hf : f e.1 = true
      · rw [if_pos hf, countKey_cons, if_neg he, ih, countKey_cons, if_neg he]
        split <;> simp
      · rw [if_neg hf, ih, countKey_cons, if_neg he]
        split <;> simp

theorem countKey_eq_zero_iff {α : Type} [DecidableEq α]
    (l : List (α × List Char)) (k : α) :
    countKey l k = 0 ↔ lookupFirst l k = none := by
  induction l with
  | nil => simp [countKey, lookupFirst]
  | cons e rest ih =>
    rw [countKey_cons, lookupFirst_cons]
    by_cases he : e.1 = k
    · simp [he]
    · simp [he, ih]

theorem lookupFirst_singleton {α : Type} [DecidableEq α] (p : α) (c : List Char)
    (k : α) : lookupFirst [(p, c)] k = if p = k then some c else none := rfl

theorem countKey_singleton {α : Type} [DecidableEq α] (p : α) (c : List Char)
    (k : α) : countKey [(p, c)] k = if p = k then 1 else 0 := by
  rw [countKey_cons]
  simp [countKey, lookupFirst]

theorem getF_removeF_self (fs : SiteTree) (p : SitePath) :
    getF (removeF fs p) p = none := by
  simp only [getF, removeF, lookupFirst_filterKeys]
  rw [if_neg (by simp)]

theorem getF_removeF_ne (fs : SiteTree) {p q : SitePath} (h : q ≠ p) :
    getF (removeF fs p) q = getF fs q := by
  simp only [getF, removeF, lookupFirst_filterKeys]
  rw [if_pos (by simp [h])]

theorem countKey_removeF_self (fs : SiteTree) (p : SitePath) :
    countKey (removeF fs p) p = 0 := by
  simp only [removeF, countKey_filterKeys]
  rw [if_neg (by simp)]

theorem countKey_removeF_ne (fs : SiteTree) {p q : SitePath} (h : q ≠ p) :
    countKey (removeF fs p) q = countKey fs q := by
  simp only [removeF, countKey_filterKeys]
  rw [if_pos (by simp [h])]

theorem getF_setF_self (fs : SiteTree) (p : SitePath) (c : List Char) :
    getF (setF fs p c) p = some c := by
  simp only [getF, setF]
  rw [lookupFirst_append_of_none _ (getF_removeF_self fs p), lookupFirst_singleton,
    if_pos rfl]

theorem getF_setF_ne (fs : SiteTree) {p q : SitePath} (c : List Char) (h : q ≠ p) :
    getF (setF fs p c) q = getF fs q := by
  simp only [getF, setF]
  cases hg : lookupFirst fs q with
  | none =>
    have h1 : getF (removeF fs p) q = none := by rw [getF_removeF_ne fs h]; exact hg
    rw [lookupFirst_append_of_none _ h1, lookupFirst_singleton,
      if_neg (fun hpq => h hpq.symm)]
  | some c2 =>
    have h1 : getF (removeF fs p) q = some c2 := by rw [getF_removeF_ne fs h]; exact hg
    rw [lookupFirst_append_of_some _ h1]

theorem countKey_setF_self (fs : SiteTree) (p : SitePath) (c : List Char) :
    countKey (setF fs p c) p = 1 := by
  simp only [setF]
  rw [countKey_append, countKey_removeF_self, countKey_singleton, if_pos rfl]

theorem countKey_setF_ne (fs : SiteTree) {p q : SitePath} (c : List Char)
    (h : q ≠ p) : countKey (setF fs p c) q = countKey fs q := by
  simp only [setF]
  rw [countKey_append, countKey_removeF_ne fs h, countKey_singleton,
    if_neg (fun hpq => h hpq.symm)]
  simp

theorem getF_graftUnder_cons (d : EntryName) (rep : SiteTree) (p : SitePath) :
    getF (graftUnder d rep) (d :: p) = getF rep p := by
  induction rep with
  | nil => rfl
  | cons e rest ih =>
    simp only [graftUnder, List.map_cons] at ih ⊢
    simp only [getF, lookupFirst_cons] at ih ⊢
    by_cases he : e.1 = p
    · rw [if_pos (by simp [he]), if_pos he]
    · rw [if_neg (by simp [he]), if_neg he]
      exact ih

theorem getF_graftUnder_ne_head (d : EntryName) (rep : SiteTree) {q : SitePath}
    (h : q.head? ≠ some d) : getF (graftUnder d rep) q = none := by
  induction rep with
  | nil => rfl
  | cons e rest ih =>
    simp only [graftUnder, List.map_cons] at ih ⊢
    simp only [getF, lookupFirst_cons] at ih ⊢
    rw [if_neg (fun hq => h (by rw [← hq]; rfl))]
    exact ih

theorem countKey_graftUnder_ne_head (d : EntryName) (rep : SiteTree) {q : SitePath}
    (h : q.head? ≠ some d) : countKey (graftUnder d rep) q = 0 := by
  induction rep with
  | nil => rfl
  | cons e rest ih =>
    simp only [graftUnder, List.map_cons] at ih ⊢
    rw [countKey_cons, if_neg (fun hq => h (by rw [← hq]; rfl)), ih]

theorem getF_rewriteLinks (fs : SiteTree) (d : EntryName) (q : SitePath) :
    getF (rewriteLinks fs d) q =
      if rewriteAt d q = true then
        (getF fs q).map (pyReplace hrefIndex hrefCovindex)
      else getF fs q := by
  induction fs with
  | nil => simp [rewriteLinks, getF, lookupFirst]
  | cons e rest ih =>
    simp only [rewriteLinks, List.map_cons] at ih ⊢
    by_cases hr : rewriteAt d e.1 = true
    · rw [if_pos hr]
      simp only [getF, lookupFirst_cons] at ih ⊢
      by_cases he : e.1 = q
      · subst he
        rw [if_pos rfl, if_pos rfl, if_pos hr]
        rfl
      · rw [if_neg he, if_neg he]
        exact ih
    · rw [if_neg hr]
      simp only [getF, lookupFirst_cons] at ih ⊢
      by_cases he : e.1 = q
      · subst he
        rw [if_pos rfl, if_pos rfl, if_neg hr]
      · rw [if_neg he, if_neg he]
        exact ih

theorem countKey_rewriteLinks (fs : SiteTree) (d : EntryName) (q : SitePath) :
    countKey (rewriteLinks fs d) q = countKey fs q := by
  induction fs with
  | nil => rfl
  | cons e rest ih =>
    simp only [rewriteLinks, List.map_cons] at ih ⊢
    by_cases hr : rewriteAt d e.1 = true
    · rw [if_pos hr, countKey_cons, countKey_cons, ih]
    · rw [if_neg hr, countKey_cons, countKey_cons, ih]

/-! ## Path-shape helper lemmas -/

theorem countOccFuel_nil_left :
    ∀ fuel s, s.length ≤ fuel → countOccFuel [] fuel s = s.length + 1 := by
  intro fuel
  induction fuel with
  | zero =>
    intro s hs
    have hnil : s = [] := List.eq_nil_of_length_eq_zero (Nat.le_zero.mp hs)
    subst hnil
    simp [countOccFuel]
  | succ fuel ih =>
    intro s hs
    cases s with
    | nil => simp [countOccFuel]
    | cons c rest =>
      simp only [countOccFuel, if_pos rfl]
      rw [ih rest (by simp at hs; omega)]
      simp

theorem countOcc_nil_left (s : List Char) : countOcc [] s = s.length + 1 :=
  countOccFuel_nil_left s.length s (Nat.le_refl _)

theorem revDotIdx_eq_none {l : List Char} (h : '.' ∉ l) : revDotIdx l = none := by
  induction l with
  | nil => rfl
  | cons c rest ih =>
    simp only [revDotIdx]
    rw [if_neg (fun hc => h (by simp [hc]))]
    rw [ih (fun hm => h (List.mem_cons_of_mem c hm))]
    rfl

theorem findLastDot_eq_none {n : EntryName} (h : '.' ∉ n) : findLastDot n = none := by
  simp only [findLastDot]
  rw [revDotIdx_eq_none (by simpa using h)]
  rfl

theorem withSuffixHtml_no_dot {n : EntryName} (h : '.' ∉ n) :
    withSuffixHtml n = n ++ htmlExt := by
  simp only [withSuffixHtml]
  rw [findLastDot_eq_none h]

theorem append_htmlExt_ne (n : EntryName) : n ++ htmlExt ≠ n := by
  intro h
  have hlen := congrArg List.length h
  simp [htmlExt] at hlen

theorem no_dot_ne_tmp {pp : EntryName} (h : '.' ∉ pp) : pp ≠ tmpName := by
  intro he
  subst he
  exact h (by decide)

theorem no_dot_append_html_ne_tmp {pp : EntryName} (h : '.' ∉ pp) :
    pp ++ htmlExt ≠ tmpName := by
  cases pp with
  | nil => exact (by decide : ¬ ([] : List Char) ++ htmlExt = tmpName)
  | cons c rest =>
    intro he
    have hhd : List.head? ((c :: rest) ++ htmlExt) = List.head? tmpName :=
      congrArg List.head? he
    have htmp : List.head? tmpName = some '.' := by decide
    rw [htmp] at hhd
    simp at hhd
    exact h (by simp [hhd])

/-! ## Lemmas about `on_files` -/

theorem countKey_filesRemove_self (files : SrcFiles) (uri : List Char) :
    countKey (filesRemove files uri) uri = countKey files uri - 1 := by
  induction files with
  | nil => rfl
  | cons e rest ih =>
    simp only [filesRemove]
    by_cases he : e.1 = uri
    · rw [if_pos he, countKey_cons, if_pos he]
      simp
    · rw [if_neg he, countKey_cons, if_neg he, ih, countKey_cons, if_neg he]
      omega

theorem countKey_on_files (cfg : PluginConfig) (u : Bool) (files : SrcFiles)
    (h : countKey files (effectivePagePath cfg ++ mdExt) ≤ 1) :
    countKey (on_files cfg u files) (effectivePagePath cfg ++ mdExt) = 1 := by
  simp only [on_files]
  rw [countKey_append, countKey_singleton, if_pos rfl]
  by_cases hc : filesContains files (effectivePagePath cfg ++ mdExt) = true
  · rw [if_pos hc, countKey_filesRemove_self]
    have h1 : countKey files (effectivePagePath cfg ++ mdExt) ≠ 0 := by
      intro h0
      have hnone := (countKey_eq_zero_iff _ _).mp h0
      simp [filesContains, hnone] at hc
    omega
  · rw [if_neg hc]
    have h0 : countKey files (effectivePagePath cfg ++ mdExt) = 0 := by
      rw [countKey_eq_zero_iff]
      cases hl : lookupFirst files (effectivePagePath cfg ++ mdExt) with
      | none => rfl
      | some c => exact absurd (by simp [filesContains, hl]) hc
    omega

theorem lookup_on_files (cfg : PluginConfig) (u : Bool) (files : SrcFiles)
    (h : countKey files (effectivePagePath cfg ++ mdExt) ≤ 1) :
    lookupFirst (on_files cfg u files) (effectivePagePath cfg ++ mdExt) =
      some (synthesizedContent cfg u files) := by
  simp only [on_files]
  have h0 : countKey
      (if filesContains files (effectivePagePath cfg ++ mdExt) = true then
        filesRemove files (effectivePagePath cfg ++ mdExt) else files)
      (effectivePagePath cfg ++ mdExt) = 0 := by
    by_cases hc : filesContains files (effectivePagePath cfg ++ mdExt) = true
    · rw [if_pos hc, countKey_filesRemove_self]
      have h1 : countKey files (effectivePagePath cfg ++ mdExt) ≠ 0 := by
        intro h0
        have hnone := (countKey_eq_zero_iff _ _).mp h0
        simp [filesContains, hnone] at hc
      omega
    · rw [if_neg hc]
      rw [countKey_eq_zero_iff]
      cases hl : lookupFirst files (effectivePagePath cfg ++ mdExt) with
      | none => rfl
      | some c => exact absurd (by simp [filesContains, hl]) hc
  rw [lookupFirst_append_of_none _ ((countKey_eq_zero_iff _ _).mp h0),
    lookupFirst_singleton, if_pos rfl]

/-! ## The claims about the page synthesizer -/

/-- Claim C6: when no user page content exists at `<page_path>.md`, or the
content is empty, the generated page markup is exactly the title-hiding
style block followed by the frame/script block — in particular it begins
with the style block, so the unset hide behaviour resolves to hidden. -/
theorem no_user_content_style_first (placeholder covindex : List Char) :
    buildCoveragePage placeholder covindex none =
        styleBlock ++ coveragePageContent covindex
      ∧ buildCoveragePage placeholder covindex (some []) =
        styleBlock ++ coveragePageContent covindex
      ∧ styleBlock <+: buildCoveragePage placeholder covindex none
      ∧ styleBlock <+: buildCoveragePage placeholder covindex (some []) :=
  ⟨rfl, rfl, ⟨coveragePageContent covindex, rfl⟩, ⟨coveragePageContent covindex, rfl⟩⟩

/-- Claim C5: for non-empty user content not containing the placeholder
token, the generated markup is the user content, the blank separator
`"\n\n"`, then the frame/script block; the style block is not part of the
appended block. -/
theorem append_branch_markup (placeholder covindex pc : List Char)
    (hne : pc ≠ []) (hnc : containsSub placeholder pc = false) :
    buildCoveragePage placeholder covindex (some pc) =
      pc ++ "\n\n".data ++ coveragePageContent covindex := by
  simp only [buildCoveragePage]
  rw [if_neg hne, if_neg (by simp [hnc])]

theorem append_branch_markup_witness :
    buildCoveragePage "\x7b\x7bmkdocs-coverage\x7d\x7d".data "covindex.html".data
        (some "hello".data) =
      "hello".data ++ "\n\n".data ++ coveragePageContent "covindex.html".data :=
  append_branch_markup "\x7b\x7bmkdocs-coverage\x7d\x7d".data "covindex.html".data
    "hello".data (by decide) (by decide)

/-- Claim C4: user content with exactly one occurrence of the placeholder
token is rewritten to the same content with exactly that occurrence replaced
by the frame/script block; the pieces before and after the occurrence are
unchanged (and contain no further occurrence). -/
theorem placeholder_single_substitution (placeholder covindex pc : List Char)
    (hne : pc ≠ []) (h1 : countOcc placeholder pc = 1) :
    ∃ p q, pc = p ++ placeholder ++ q ∧ countOcc placeholder p = 0 ∧
      countOcc placeholder q = 0 ∧
      buildCoveragePage placeholder covindex (some pc) =
        p ++ coveragePageContent covindex ++ q := by
  have hold : placeholder ≠ [] := by
    intro hph
    subst hph
    rw [countOcc_nil_left] at h1
    exact hne (List.eq_nil_of_length_eq_zero (by omega))
  obtain ⟨p, q, hs, hp, hq, hr⟩ :=
    countOcc_one_decomp (coveragePageContent covindex) pc hold h1
  have hcont : containsSub placeholder pc = true :=
    (containsSub_iff_countOcc _ _).mpr (by rw [h1]; exact one_ne_zero)
  refine ⟨p, q, hs, hp, hq, ?_⟩
  simp only [buildCoveragePage]
  rw [if_neg hne, if_pos hcont]
  exact hr

theorem placeholder_single_substitution_witness :
    ∃ p q, "aXb".data = p ++ "X".data ++ q ∧ countOcc "X".data p = 0 ∧
      countOcc "X".data q = 0 ∧
      buildCoveragePage "X".data "covindex.html".data (some "aXb".data) =
        p ++ coveragePageContent "covindex.html".data ++ q :=
  placeholder_single_substitution "X".data "covindex.html".data "aXb".data
    (by decide) (by decide)

/-- Claim C9: when the placeholder token occurs two or more times in the
user content, every occurrence is replaced (Python replace-all semantics):
the markup is the frame/script block intercalated over the
placeholder-split of the content, whose parts are placeholder-free and
number exactly one more than the occurrence count. -/
theorem placeholder_replace_all (placeholder covindex pc : List Char)
    (hold : placeholder ≠ []) (hne : pc ≠ [])
    (h2 : 2 ≤ countOcc placeholder pc) :
    buildCoveragePage placeholder covindex (some pc) =
        List.intercalate (coveragePageContent covindex) (pySplit placeholder pc)
      ∧ (pySplit placeholder pc).length = countOcc placeholder pc + 1
      ∧ ∀ p ∈ pySplit placeholder pc, countOcc placeholder p = 0 := by
  have hcont : containsSub placeholder pc = true :=
    (containsSub_iff_countOcc _ _).mpr (by omega)
  refine ⟨?_, length_pySplit pc hold, countOcc_parts_pySplit pc hold⟩
  simp only [buildCoveragePage]
  rw [if_neg hne, if_pos hcont]
  exact pyReplace_eq_intercalate _ pc hold

theorem placeholder_replace_all_witness :
    buildCoveragePage "X".data "covindex.html".data (some "aXbXc".data) =
        List.intercalate (coveragePageContent "covindex.html".data)
          (pySplit "X".data "aXbXc".data)
      ∧ (pySplit "X".data "aXbXc".data).length = countOcc "X".data "aXbXc".data + 1
      ∧ ∀ p ∈ pySplit "X".data "aXbXc".data, countOcc "X".data p = 0 :=
  placeholder_replace_all "X".data "covindex.html".data "aXbXc".data
    (by decide) (by decide) (by decide)

/-- Claim C8: the synthesizer computes the relative report-index URL as
`covindex.html` under directory URLs and as `<page_path>/covindex.html`
otherwise, and embeds exactly that string literally into the inline frame's
`src` attribute (the text right before it ends with `src="`); the computed
URL is the one piped into the built page content. -/
theorem covindex_url_embedding (pp covindex : List Char) (cfg : PluginConfig)
    (u : Bool) (files : SrcFiles) :
    covindexOf pp true = "covindex.html".data
      ∧ covindexOf pp false = pp ++ "/covindex.html".data
      ∧ iframeBlock covindex = iframeSrcPre ++ covindex ++ iframeSrcPost
      ∧ iframeSrcPre = "\n<iframe\n    id=\"coviframe\"\n    src=\"".data
      ∧ synthesizedContent cfg u files =
          buildCoveragePage cfg.coverage_inplace_placeholder
            (covindexOf (effectivePagePath cfg) u)
            (lookupFirst files (effectivePagePath cfg ++ mdExt)) :=
  ⟨rfl, rfl, rfl, rfl, rfl⟩

set_option maxRecDepth 8000 in
/-- Claim C3 as stated fails on the code: `MkDocsCoverageConfig` carries no
`hide_page_title` option, and with user content present the block
substituted at the placeholder is the bare frame/script block.  At this
concrete input (user content consisting of exactly the default placeholder
token) the whole generated page equals the substituted block, and the
title-hiding style block does not occur anywhere in it. -/
theorem hide_page_title_counterexample :
    buildCoveragePage defaultConfig.coverage_inplace_placeholder
        "covindex.html".data (some defaultConfig.coverage_inplace_placeholder) =
      coveragePageContent "covindex.html".data
    ∧ containsSub styleBlock (coveragePageContent "covindex.html".data) = false := by
  constructor
  · decide
  · decide

set_option maxRecDepth 8000 in
/-- Claim C3 (amended): the plugin recognises no hide-title option; when
user content exists the generated block substituted at the placeholder (or
appended) is exactly the frame/script block `coveragePageContent`, which
does not include the title-hiding style block (checked at the directory-URL
covindex value). -/
theorem no_hide_option_block (placeholder covindex pc : List Char)
    (hne : pc ≠ []) :
    (containsSub placeholder pc = true →
        buildCoveragePage placeholder covindex (some pc) =
          pyReplace placeholder (coveragePageContent covindex) pc)
      ∧ (containsSub placeholder pc = false →
        buildCoveragePage placeholder covindex (some pc) =
          pc ++ "\n\n".data ++ coveragePageContent covindex)
      ∧ containsSub styleBlock (coveragePageContent "covindex.html".data) = false := by
  refine ⟨?_, ?_, by decide⟩
  · intro h
    simp only [buildCoveragePage]
    rw [if_neg hne, if_pos h]
  · intro h
    simp only [buildCoveragePage]
    rw [if_neg hne, if_neg (by simp [h])]

set_option maxRecDepth 8000 in
theorem no_hide_option_block_witness :
    (containsSub "X".data "aXb".data = true →
        buildCoveragePage "X".data "covindex.html".data (some "aXb".data) =
          pyReplace "X".data (coveragePageContent "covindex.html".data) "aXb".data)
      ∧ (containsSub "X".data "aXb".data = false →
        buildCoveragePage "X".data "covindex.html".data (some "aXb".data) =
          "aXb".data ++ "\n\n".data ++ coveragePageContent "covindex.html".data)
      ∧ containsSub styleBlock (coveragePageContent "covindex.html".data) = false :=
  no_hide_option_block "X".data "covindex.html".data "aXb".data (by decide)

/-- Claim C7: synthesizing twice for the same `page_path` leaves exactly one
entry at `<page_path>.md` (already after one application, given the host
invariant of at most one entry per path), and the entry after the second
run carries the second run's content: insertion replaces rather than
duplicates. -/
theorem on_files_idempotent_replace (cfg : PluginConfig) (u : Bool)
    (files : SrcFiles)
    (h : countKey files (effectivePagePath cfg ++ mdExt) ≤ 1) :
    countKey (on_files cfg u files) (effectivePagePath cfg ++ mdExt) = 1
      ∧ countKey (on_files cfg u (on_files cfg u files))
          (effectivePagePath cfg ++ mdExt) = 1
      ∧ lookupFirst (on_files cfg u (on_files cfg u files))
          (effectivePagePath cfg ++ mdExt) =
        some (synthesizedContent cfg u (on_files cfg u files)) := by
  have h1 := countKey_on_files cfg u files h
  exact ⟨h1, countKey_on_files cfg u _ (by omega), lookup_on_files cfg u _ (by omega)⟩

theorem on_files_idempotent_replace_witness :
    countKey (on_files defaultConfig true [("coverage.md".data, "hello".data)])
        (effectivePagePath defaultConfig ++ mdExt) = 1
      ∧ countKey (on_files defaultConfig true
            (on_files defaultConfig true [("coverage.md".data, "hello".data)]))
          (effectivePagePath defaultConfig ++ mdExt) = 1
      ∧ lookupFirst (on_files defaultConfig true
            (on_files defaultConfig true [("coverage.md".data, "hello".data)]))
          (effectivePagePath defaultConfig ++ mdExt) =
        some (synthesizedContent defaultConfig true
          (on_files defaultConfig true [("coverage.md".data, "hello".data)])) :=
  on_files_idempotent_replace defaultConfig true
    [("coverage.md".data, "hello".data)] (by decide)

/-! ## The claims about the report merger -/

/-- Claim C2: when `html_report_dir` names a nonexistent path the merge
emits exactly one warning message naming the missing report directory,
returns normally instead of raising, and performs none of the remaining
steps: the resulting tree is exactly the post-removal, pre-copy state (the
rendered page moved to the holding path, the `page_path` subtree cleared),
with no covindex rename, no restore of the held page, and no link
rewriting. -/
theorem merge_missing_report_warns (u : Bool) (pp rname : EntryName)
    (fs : SiteTree) (synth : List Char)
    (h1 : getF fs (canonicalSlot u pp) = some synth) :
    on_post_build u pp rname none fs =
      Except.ok
        (rmtreeAt (setF (removeF fs (canonicalSlot u pp)) [tmpName] synth) pp,
          [warnText ++ rname]) := by
  simp only [on_post_build, moveF, h1]

theorem merge_missing_report_warns_witness :
    on_post_build true "coverage".data "htmlcov".data none
        [(["coverage".data, indexName], "SYNTH".data)] =
      Except.ok
        (rmtreeAt
          (setF (removeF [(["coverage".data, indexName], "SYNTH".data)]
            (canonicalSlot true "coverage".data)) [tmpName] "SYNTH".data)
          "coverage".data,
          [warnText ++ "htmlcov".data]) :=
  merge_missing_report_warns true "coverage".data "htmlcov".data
    [(["coverage".data, indexName], "SYNTH".data)] "SYNTH".data (by decide)

/-- Claim C10: on the missing-report abort path the rendered synthesized
page is still at the temporary holding path `site_dir/.coverage-tmp.html`
and no file exists at the canonical slot: the held page is never restored
on this path. -/
theorem missing_report_leaves_tmp (u : Bool) (pp rname : EntryName)
    (fs : SiteTree) (synth : List Char)
    (hdot : '.' ∉ pp)
    (h1 : getF fs (canonicalSlot u pp) = some synth) :
    ∃ final w, on_post_build u pp rname none fs = Except.ok (final, w)
      ∧ getF final [tmpName] = some synth
      ∧ getF final (canonicalSlot u pp) = none := by
  have hres : on_post_build u pp rname none fs =
      Except.ok
        (rmtreeAt (setF (removeF fs (canonicalSlot u pp)) [tmpName] synth) pp,
          [warnText ++ rname]) := by
    simp only [on_post_build, moveF, h1]
  refine ⟨_, _, hres, ?_, ?_⟩
  · show lookupFirst _ _ = _
    rw [show rmtreeAt (setF (removeF fs (canonicalSlot u pp)) [tmpName] synth) pp =
      filterKeys (keepRmtree pp)
        (setF (removeF fs (canonicalSlot u pp)) [tmpName] synth) from rfl]
    rw [lookupFirst_filterKeys, if_pos (by simp [keepRmtree])]
    exact getF_setF_self _ _ _
  · cases u with
    | true =>
      show lookupFirst _ _ = _
      rw [show rmtreeAt (setF (removeF fs (canonicalSlot true pp)) [tmpName] synth) pp =
        filterKeys (keepRmtree pp)
          (setF (removeF fs (canonicalSlot true pp)) [tmpName] synth) from rfl]
      rw [lookupFirst_filterKeys,
        if_neg (by simp [keepRmtree, canonicalSlot])]
    | false =>
      have hcan : canonicalSlot false pp = [pp ++ htmlExt] := by
        simp [canonicalSlot, withSuffixHtml_no_dot hdot]
      rw [hcan]
      show lookupFirst (filterKeys (keepRmtree pp)
        (setF (removeF fs [pp ++ htmlExt]) [tmpName] synth)) [pp ++ htmlExt] = none
      rw [lookupFirst_filterKeys, if_pos (by simp [keepRmtree])]
      have hne : ([pp ++ htmlExt] : SitePath) ≠ [tmpName] := by
        simp [no_dot_append_html_ne_tmp hdot]
      show getF (setF (removeF fs [pp ++ htmlExt]) [tmpName] synth) [pp ++ htmlExt] = none
      rw [getF_setF_ne _ _ hne, getF_removeF_self]

theorem missing_report_leaves_tmp_witness :
    ∃ final w, on_post_build true "coverage".data "htmlcov".data none
        [(["coverage".data, indexName], "SYNTH".data)] = Except.ok (final, w)
      ∧ getF final [tmpName] = some "SYNTH".data
      ∧ getF final (canonicalSlot true "coverage".data) = none :=
  missing_report_leaves_tmp true "coverage".data "htmlcov".data
    [(["coverage".data, indexName], "SYNTH".data)] "SYNTH".data (by decide) (by decide)

theorem getF_rmtreeAt (fs : SiteTree) (d : EntryName) (q : SitePath) :
    getF (rmtreeAt fs d) q = if keepRmtree d q = true then getF fs q else none :=
  lookupFirst_filterKeys _ _ _

theorem getF_append_of_none {fs1 : SiteTree} (fs2 : SiteTree) {q : SitePath}
    (h : getF fs1 q = none) : getF (fs1 ++ fs2) q = getF fs2 q :=
  lookupFirst_append_of_none _ h

theorem getF_append_of_some {fs1 : SiteTree} (fs2 : SiteTree) {q : SitePath}
    {c : List Char} (h : getF fs1 q = some c) : getF (fs1 ++ fs2) q = some c :=
  lookupFirst_append_of_some _ h

/-- The whole successful merge chain, for an abstract canonical slot: the
shared part of the directory-URL and file-URL cases of claim C1. -/
theorem merge_chain_aux (u : Bool) (pp rname : EntryName) (rep fs : SiteTree)
    (synth repIdx : List Char) (canonical : SitePath)
    (hcan : canonicalSlot u pp = canonical)
    (hpt : pp ≠ tmpName)
    (hcp : canonical ≠ [pp])
    (hci : ∀ n, n ≠ indexName → canonical ≠ [pp, n])
    (hra : rewriteAt pp canonical = false)
    (h1 : getF fs canonical = some synth)
    (h2 : getF fs [pp] = none)
    (h3 : getF rep [indexName] = some repIdx) :
    ∃ final, on_post_build u pp rname (some rep) fs = Except.ok (final, [])
      ∧ countKey final canonical = 1
      ∧ getF final canonical = some synth
      ∧ getF final [pp, covindexName] =
          some (pyReplace hrefIndex hrefCovindex repIdx)
      ∧ ∀ n c, n ≠ indexName → n ≠ covindexName → nameSuffix n = htmlExt →
          getF rep [n] = some c →
          getF final [pp, n] = some (pyReplace hrefIndex hrefCovindex c) := by
  subst hcan
  have hmv1 : moveF fs (canonicalSlot u pp) [tmpName] =
      Except.ok (setF (removeF fs (canonicalSlot u pp)) [tmpName] synth) := by
    simp [moveF, h1]
  have hfs1pp :
      getF (setF (removeF fs (canonicalSlot u pp)) [tmpName] synth) [pp] = none := by
    rw [getF_setF_ne _ _ (by simp [hpt]), getF_removeF_ne _ (Ne.symm hcp), h2]
  have hfs2pp :
      getF (rmtreeAt (setF (removeF fs (canonicalSlot u pp)) [tmpName] synth) pp)
        [pp] = none := by
    rw [getF_rmtreeAt, if_pos (by simp [keepRmtree]), hfs1pp]
  have hcopy :
      copytreeInto
          (rmtreeAt (setF (removeF fs (canonicalSlot u pp)) [tmpName] synth) pp)
          rep pp =
        Except.ok
          (rmtreeAt (setF (removeF fs (canonicalSlot u pp)) [tmpName] synth) pp ++
            graftUnder pp rep) := by
    simp [copytreeInto, hfs2pp]
  have hfs2idx :
      getF (rmtreeAt (setF (removeF fs (canonicalSlot u pp)) [tmpName] synth) pp)
        [pp, indexName] = none := by
    rw [getF_rmtreeAt, if_neg (by simp [keepRmtree])]
  have hfs3idx :
      getF
          (rmtreeAt (setF (removeF fs (canonicalSlot u pp)) [tmpName] synth) pp ++
            graftUnder pp rep) [pp, indexName] = some repIdx := by
    rw [getF_append_of_none _ hfs2idx, getF_graftUnder_cons, h3]
  have hmv4 :
      moveF
          (rmtreeAt (setF (removeF fs (canonicalSlot u pp)) [tmpName] synth) pp ++
            graftUnder pp rep) [pp, indexName] [pp, covindexName] =
        Except.ok
          (setF
            (removeF
              (rmtreeAt (setF (removeF fs (canonicalSlot u pp)) [tmpName] synth) pp ++
                graftUnder pp rep) [pp, indexName])
            [pp, covindexName] repIdx) := by
    simp [moveF, hfs3idx]
  have hfs2tmp :
      getF (rmtreeAt (setF (removeF fs (canonicalSlot u pp)) [tmpName] synth) pp)
        [tmpName] = some synth := by
    rw [getF_rmtreeAt, if_pos (by simp [keepRmtree]), getF_setF_self]
  have hfs4tmp :
      getF
          (setF
            (removeF
              (rmtreeAt (setF (removeF fs (canonicalSlot u pp)) [tmpName] synth) pp ++
                graftUnder pp rep) [pp, indexName])
            [pp, covindexName] repIdx) [tmpName] = some synth := by
    rw [getF_setF_ne _ _ (by simp), getF_removeF_ne _ (by simp)]
    exact getF_append_of_some _ hfs2tmp
  have hmv5 :
      moveF
          (setF
            (removeF
              (rmtreeAt (setF (removeF fs (canonicalSlot u pp)) [tmpName] synth) pp ++
                graftUnder pp rep) [pp, indexName])
            [pp, covindexName] repIdx) [tmpName] (canonicalSlot u pp) =
        Except.ok
          (setF
            (removeF
              (setF
                (removeF
                  (rmtreeAt (setF (removeF fs (canonicalSlot u pp)) [tmpName] synth)
                      pp ++ graftUnder pp rep) [pp, indexName])
                [pp, covindexName] repIdx) [tmpName])
            (canonicalSlot u pp) synth) := by
    simp [moveF, hfs4tmp]
  refine ⟨rewriteLinks
      (setF
        (removeF
          (setF
            (removeF
              (rmtreeAt (setF (removeF fs (canonicalSlot u pp)) [tmpName] synth) pp ++
                graftUnder pp rep) [pp, indexName])
            [pp, covindexName] repIdx) [tmpName])
        (canonicalSlot u pp) synth) pp, ?_, ?_, ?_, ?_, ?_⟩
  · simp only [on_post_build, hmv1, hcopy, hmv4, hmv5]
  · rw [countKey_rewriteLinks, countKey_setF_self]
  · rw [getF_rewriteLinks, if_neg (by simp [hra]), getF_setF_self]
  · have htrue : rewriteAt pp [pp, covindexName] = true := by
      simp [rewriteAt]
      decide
    rw [getF_rewriteLinks, if_pos htrue,
      getF_setF_ne _ _ (fun h => hci covindexName (by decide) h.symm),
      getF_removeF_ne _ (by simp), getF_setF_self]
    rfl
  · intro n c hni hnc hsuf hrep
    have htrue : rewriteAt pp [pp, n] = true := by
      simp [rewriteAt]
      exact ⟨hsuf, hni⟩
    have hfs2n :
        getF (rmtreeAt (setF (removeF fs (canonicalSlot u pp)) [tmpName] synth) pp)
          [pp, n] = none := by
      rw [getF_rmtreeAt, if_neg (by simp [keepRmtree])]
    rw [getF_rewriteLinks, if_pos htrue,
      getF_setF_ne _ _ (fun h => hci n hni h.symm),
      getF_removeF_ne _ (by simp),
      getF_setF_ne _ _ (by simp [hnc]),
      getF_removeF_ne _ (by simp [hni]),
      getF_append_of_none _ hfs2n, getF_graftUnder_cons, hrep]
    rfl

/-- Claim C1: after a successful merge (the report tree exists, rooted at
`index.html`), exactly one file occupies the canonical slot
(`site_dir/page_path/index.html` under directory URLs, else
`site_dir/page_path.html`) and it holds the synthesized page's rendered
content; the report's former root is at `site_dir/page_path/covindex.html`
(with its own links rewritten); and every other `.html` file directly
inside `site_dir/page_path/` has every occurrence of `href="index.html"`
rewritten to `href="covindex.html"` (its final content is the
`pyReplace`-rewrite of its report content). -/
theorem merge_success_round_trip (u : Bool) (pp rname : EntryName)
    (rep fs : SiteTree) (synth repIdx : List Char)
    (hdot : '.' ∉ pp)
    (h1 : getF fs (canonicalSlot u pp) = some synth)
    (h2 : getF fs [pp] = none)
    (h3 : getF rep [indexName] = some repIdx) :
    ∃ final, on_post_build u pp rname (some rep) fs = Except.ok (final, [])
      ∧ countKey final (canonicalSlot u pp) = 1
      ∧ getF final (canonicalSlot u pp) = some synth
      ∧ getF final [pp, covindexName] =
          some (pyReplace hrefIndex hrefCovindex repIdx)
      ∧ ∀ n c, n ≠ indexName → n ≠ covindexName → nameSuffix n = htmlExt →
          getF rep [n] = some c →
          getF final [pp, n] = some (pyReplace hrefIndex hrefCovindex c) := by
  cases u with
  | true =>
    refine merge_chain_aux true pp rname rep fs synth repIdx (canonicalSlot true pp)
      rfl (no_dot_ne_tmp hdot) (by simp [canonicalSlot]) ?_ ?_ h1 h2 h3
    · intro n hn
      simp only [canonicalSlot, if_pos rfl]
      intro h
      injection h with ha hb
      injection hb with hc hd
      exact hn hc.symm
    · simp [canonicalSlot, rewriteAt]
  | false =>
    have hcan : canonicalSlot false pp = [pp ++ htmlExt] := by
      simp [canonicalSlot, withSuffixHtml_no_dot hdot]
    rw [hcan] at h1 ⊢
    refine merge_chain_aux false pp rname rep fs synth repIdx [pp ++ htmlExt]
      hcan (no_dot_ne_tmp hdot) ?_ (fun n hn => by simp) ?_ h1 h2 h3
    · intro h
      injection h with ha hb
      exact append_htmlExt_ne pp ha
    · rfl

theorem merge_success_round_trip_witness :
    ∃ final, on_post_build true "coverage".data "htmlcov".data
        (some [([indexName], "REPORT".data), (["other.html".data], hrefIndex)])
        [(["coverage".data, indexName], "SYNTH".data)] = Except.ok (final, [])
      ∧ countKey final (canonicalSlot true "coverage".data) = 1
      ∧ getF final (canonicalSlot true "coverage".data) = some "SYNTH".data
      ∧ getF final ["coverage".data, covindexName] =
          some (pyReplace hrefIndex hrefCovindex "REPORT".data)
      ∧ ∀ n c, n ≠ indexName → n ≠ covindexName → nameSuffix n = htmlExt →
          getF [([indexName], "REPORT".data), (["other.html".data], hrefIndex)]
            [n] = some c →
          getF final ["coverage".data, n] =
            some (pyReplace hrefIndex hrefCovindex c) :=
  merge_success_round_trip true "coverage".data "htmlcov".data
    [([indexName], "REPORT".data), (["other.html".data], hrefIndex)]
    [(["coverage".data, indexName], "SYNTH".data)] "SYNTH".data "REPORT".data
    (by decide) (by decide) (by decide) (by decide)
